import Mathlib

/-!
Verification of the `EwtsLexer` tokenizer table (src/doc/site/lexer/ewts.py).

The repository contains a single Pygments `RegexLexer` subclass whose content
is the `tokens` state table.  We embed that table shallowly: every regex rule
of the table becomes an executable Lean matcher returning the length it would
consume at the current position (Python `re` semantics with `re.DOTALL`
and `re.MULTILINE`, first-match-wins over the ordered rule list), and the
scanning loop that drives the table — which lives in the external
syntax-highlighting framework, not in this repository — is modelled from the
specification, section 4.1 (maintain a position and a state stack initialised
to `[root]`, first matching rule of the top state wins, default fallback,
per-character Error recovery).

Character classes from Python's Unicode regex classes (`\s`, `\w`, and the
identifier categories built with `uni.combine`) are embedded over their ASCII
portion plus the two zero-width-joiner code points that the source names
explicitly; every claim checked below only exercises this portion, and all
uses inside the table refer to the same definitions, so the embedding is
internally consistent.
-/

namespace Ewts

/-- Token classification labels used by the rules of the table. -/
inductive TokenType where
  | Whitespace
  | Comment
  | CommentSingle
  | CommentMultiline
  | CommentHashbang
  | TText
  | NumberBin
  | NumberOct
  | NumberHex
  | NumberInteger
  | NumberFloat
  | Punctuation
  | Operator
  | OperatorWord
  | Keyword
  | KeywordReserved
  | KeywordDeclaration
  | KeywordConstant
  | NameBuiltin
  | NameException
  | NameOther
  | StringDouble
  | StringSingle
  | StringBacktick
  | StringInterpol
  | StringRegex
  | Error
  deriving DecidableEq, Repr

/-- Names of the lexer states of the table. -/
inductive St where
  | root
  | slashstartsregex
  | badregex
  | interp
  | interpInside
  deriving DecidableEq, Repr

/-- State-stack action attached to a rule: stay, pop, push a state, or
pop-then-push (the `('#pop', 'badregex')` form). -/
inductive Action where
  | stay
  | pop
  | push (s : St)
  | popPush (s : St)
  deriving DecidableEq, Repr

/-- A token: classification label together with the matched text. -/
abbrev Token := TokenType × List Char

/-- Characters that are not string literals in Lean-friendly form. -/
def btick : Char := Char.ofNat 96
def lbrace : Char := Char.ofNat 123
def rbrace : Char := Char.ofNat 125

/-- Python `\s` (ASCII portion). -/
def isSpaceCh (c : Char) : Bool :=
  c = ' ' || c = '\t' || c = '\n' || c = '\r' ||
  c = Char.ofNat 11 || c = Char.ofNat 12

/-- Python `\w` (ASCII portion): letters, digits, underscore. -/
def isWordCh (c : Char) : Bool :=
  ('a' ≤ c && c ≤ 'z') || ('A' ≤ c && c ≤ 'Z') || ('0' ≤ c && c ≤ '9') || c = '_'

def isDigitCh (c : Char) : Bool := '0' ≤ c && c ≤ '9'

def isHexCh (c : Char) : Bool :=
  isDigitCh c || ('a' ≤ c && c ≤ 'f') || ('A' ≤ c && c ≤ 'F')

def isOctCh (c : Char) : Bool := '0' ≤ c && c ≤ '7'

def isBinCh (c : Char) : Bool := c = '0' || c = '1'

def isAlphaCh (c : Char) : Bool :=
  ('a' ≤ c && c ≤ 'z') || ('A' ≤ c && c ≤ 'Z')

/-- `JS_IDENT_START` (ASCII portion): `$`, `_`, letters. -/
def isIdentStartCh (c : Char) : Bool := c = '$' || c = '_' || isAlphaCh c

/-- `JS_IDENT_PART` (ASCII portion plus U+200C/U+200D as in the source). -/
def isIdentPartCh (c : Char) : Bool :=
  c = '$' || c = '_' || isAlphaCh c || isDigitCh c ||
  c = Char.ofNat 0x200c || c = Char.ofNat 0x200d

/-- Word-boundary `\b` between a left character (none at the text edge) and
the rest of the input. -/
def isWordOpt : Option Char → Bool
  | none => false
  | some c => isWordCh c

/-- `\b` holds at a point with character `l` on the left and the list `s` on
the right. -/
def wordBoundary (l : Option Char) (s : List Char) : Bool :=
  isWordOpt l != isWordOpt s.head?

/-- `^` in `re.MULTILINE`: start of text or right after a newline. -/
def atLineStart : Option Char → Bool
  | none => true
  | some c => c = '\n'

/-- Length of the maximal prefix of `s` satisfying `p` (a greedy
character-class star). -/
def countWhile (p : Char → Bool) : List Char → Nat
  | [] => 0
  | c :: t => if p c then countWhile p t + 1 else 0

/-- Strip a literal string prefix, returning the rest on success. -/
def stripPfx : List Char → List Char → Option (List Char)
  | [], s => some s
  | _ :: _, [] => none
  | p :: ps, c :: t => if p = c then stripPfx ps t else none

/-- Whether the literal `p` is a prefix of `s`. -/
def startsWith (p : List Char) (s : List Char) : Bool :=
  (stripPfx p s).isSome

def squote : Char := Char.ofNat 39

/-! ### Matchers for the individual rule patterns

Each `m…` function is the embedding of one regex of the table: it returns
the number of characters the pattern consumes when anchored at the head of
the given list (with the character preceding the position supplied where the
pattern inspects it), or `none` if the pattern does not match there. -/

/-- `\s+` -/
def mWs (s : List Char) : Option Nat :=
  let k := countWhile isSpaceCh s
  if k = 0 then none else some k

/-- `<!--` -/
def mHtmlComment (s : List Char) : Option Nat :=
  if startsWith ['<', '!', '-', '-'] s then some 4 else none

/-- `//.*?$` (`$` in multiline mode: the match stops before the next newline
or at the end of input; the non-greedy star picks the first such point). -/
def mSlComment (s : List Char) : Option Nat :=
  if startsWith ['/', '/'] s then some (2 + countWhile (· != '\n') (s.drop 2))
  else none

/-- Length up to and including the first `*/` in the list, if any
(the non-greedy `.*?\*/`, with `.` matching newlines). -/
def closeMl : List Char → Option Nat
  | [] => none
  | '*' :: '/' :: _ => some 2
  | _ :: t => (closeMl t).map (· + 1)

/-- `/\*.*?\*/` -/
def mMlComment (s : List Char) : Option Nat :=
  if startsWith ['/', '*'] s then (closeMl (s.drop 2)).map (· + 2)
  else none

/-- The bracket-class part `(\\.|[^\]\\\n])*]` of the regex-literal rule:
length consumed after the opening `[`, up to and including the closing `]`. -/
def classRest : List Char → Option Nat
  | [] => none
  | ']' :: _ => some 1
  | '\n' :: _ => none
  | '\\' :: [] => none
  | '\\' :: _ :: t => (classRest t).map (· + 2)
  | _ :: t => (classRest t).map (· + 1)

/-- One item of the regex-literal body `(\\.|[^[/\\\n]|\[(\\.|[^\]\\\n])*])`. -/
def regexItem : List Char → Option Nat
  | [] => none
  | '\\' :: [] => none
  | '\\' :: _ :: _ => some 2
  | '[' :: t => (classRest t).map (· + 1)
  | '/' :: _ => none
  | '\n' :: _ => none
  | _ :: _ => some 1

/-- Greedy iteration of `regexItem` (the `(...)+` body); returns the total
length consumed.  The fuel argument is an upper bound on the number of
items; each item consumes at least one character. -/
def regexBodyAux : Nat → List Char → Nat
  | 0, _ => 0
  | fuel + 1, s =>
    match regexItem s with
    | none => 0
    | some n => n + regexBodyAux fuel (s.drop n)

def isFlagCh (c : Char) : Bool :=
  c = 'g' || c = 'i' || c = 'm' || c = 'u' || c = 'y' || c = 's' || c = 'd'

/-- `/(\\.|[^[/\\\n]|\[(\\.|[^\]\\\n])*])+/([gimuysd]+\b|\B)`.
After the closing slash, either a non-empty flag run followed by `\b`, or
`\B`; since `/` and the flag letters are on known sides of the word-boundary
classes, both cases reduce to: the character after the (possibly empty)
maximal flag run must not be a word character. -/
def mRegex (s : List Char) : Option Nat :=
  if s.head? = some '/' then
    let t := s.drop 1
    let b := regexBodyAux t.length t
    if b = 0 then none
    else if (t.drop b).head? = some '/' then
      let u := t.drop (b + 1)
      let fl := countWhile isFlagCh u
      if isWordOpt (u.drop fl).head? then none else some (2 + b + fl)
    else none
  else none

/-- `(?=/)` — a zero-width lookahead. -/
def mSlashAhead (s : List Char) : Option Nat :=
  if s.head? = some '/' then some 0 else none

/-- `\n` (the single rule of `badregex`). -/
def mNewline (s : List Char) : Option Nat :=
  if s.head? = some '\n' then some 1 else none

/-- `\A#! ?/.*?$` — the hashbang rule; `\A` restricts it to the very start
of the input. -/
def mHashbang (prev : Option Char) (s : List Char) : Option Nat :=
  if prev.isSome then none
  else if startsWith ['#', '!', ' ', '/'] s then
    some (4 + countWhile (· != '\n') (s.drop 4))
  else if startsWith ['#', '!', '/'] s then
    some (3 + countWhile (· != '\n') (s.drop 3))
  else none

/-- The lookahead `(?=\s|/|<!--)`. -/
def lookaheadSW (s : List Char) : Bool :=
  (match s.head? with
   | some c => isSpaceCh c || c = '/'
   | none => false) || startsWith ['<', '!', '-', '-'] s

/-- `^(?=\s|/|<!--)` — zero-width; pushes `slashstartsregex` at a line start
whose first character announces whitespace, a slash or an HTML comment. -/
def mLineStart (prev : Option Char) (s : List Char) : Option Nat :=
  if atLineStart prev && lookaheadSW s then some 0 else none

/-- `n` suffix helper for the `n?` of the integer rules. -/
def nSuf (s : List Char) : Nat := if s.head? = some 'n' then 1 else 0

/-- `0[bB][01]+n?` -/
def mNumBin (s : List Char) : Option Nat :=
  if startsWith ['0', 'b'] s || startsWith ['0', 'B'] s then
    let t := s.drop 2
    let k := countWhile isBinCh t
    if k = 0 then none else some (2 + k + nSuf (t.drop k))
  else none

/-- `0[oO]?[0-7]+n?` -/
def mNumOct (s : List Char) : Option Nat :=
  if s.head? = some '0' then
    let t := s.drop 1
    if t.head? = some 'o' || t.head? = some 'O' then
      let u := t.drop 1
      let k := countWhile isOctCh u
      if k = 0 then none else some (2 + k + nSuf (u.drop k))
    else
      let k := countWhile isOctCh t
      if k = 0 then none else some (1 + k + nSuf (t.drop k))
  else none

/-- `0[xX][0-9a-fA-F]+n?` -/
def mNumHex (s : List Char) : Option Nat :=
  if startsWith ['0', 'x'] s || startsWith ['0', 'X'] s then
    let t := s.drop 2
    let k := countWhile isHexCh t
    if k = 0 then none else some (2 + k + nSuf (t.drop k))
  else none

/-- `[0-9]+n` -/
def mNumBigInt (s : List Char) : Option Nat :=
  let k := countWhile isDigitCh s
  if k = 0 then none
  else if (s.drop k).head? = some 'n' then some (k + 1) else none

/-- The optional exponent `([eE][-+]?[0-9]+)?`: extra length, `0` when the
exponent is absent or incomplete. -/
def expLen : List Char → Nat
  | e :: t =>
    if e = 'e' || e = 'E' then
      match t with
      | c :: u =>
        if c = '+' || c = '-' then
          let k := countWhile isDigitCh u
          if k = 0 then 0 else 2 + k
        else
          let k := countWhile isDigitCh t
          if k = 0 then 0 else 1 + k
      | [] => 0
    else 0
  | [] => 0

/-- `(\.[0-9]+|[0-9]+\.[0-9]*|[0-9]+)([eE][-+]?[0-9]+)?` -/
def mNumFloat (s : List Char) : Option Nat :=
  if s.head? = some '.' then
    let t := s.drop 1
    let k := countWhile isDigitCh t
    if k = 0 then none else some (1 + k + expLen (t.drop k))
  else
    let k := countWhile isDigitCh s
    if k = 0 then none
    else if (s.drop k).head? = some '.' then
      let u := s.drop (k + 1)
      let j := countWhile isDigitCh u
      some (k + 1 + j + expLen (u.drop j))
    else some (k + expLen (s.drop k))

/-- `\.\.\.|=>` -/
def mSpread (s : List Char) : Option Nat :=
  if startsWith ['.', '.', '.'] s then some 3
  else if startsWith ['=', '>'] s then some 2
  else none

/-- Ordered alternation of literal alternatives with an explicit consumed
length each (the length differs from the literal's length only for the
lookahead alternative `\\(?=\n)`). -/
def firstLit : List (List Char × Nat) → List Char → Option Nat
  | [], _ => none
  | (w, n) :: rest, s => if startsWith w s then some n else firstLit rest s

/-- The alternatives of the parenthesized core
`(<<|>>>?|==?|!=?|(?:\*\*|\|\||&&|[-<>+*%&|^/]))` of the operator rule, in
declared order; the greedy `>>>?` and `==?` and `!=?` expand into the long
alternative before the short one. -/
def opCoreAlts : List (List Char × Nat) :=
  [(['<', '<'], 2), (['>', '>', '>'], 3), (['>', '>'], 2),
   (['=', '='], 2), (['='], 1), (['!', '='], 2), (['!'], 1),
   (['*', '*'], 2), (['|', '|'], 2), (['&', '&'], 2)]

/-- The single-character class `[-<>+*%&|^/]` closing that alternation. -/
def isOpSingle (c : Char) : Bool :=
  c = '-' || c = '<' || c = '>' || c = '+' || c = '*' || c = '%' ||
  c = '&' || c = '|' || c = '^' || c = '/'

def opCore (s : List Char) : Option Nat :=
  match firstLit opCoreAlts s with
  | some n => some n
  | none =>
    match s.head? with
    | some c => if isOpSingle c then some 1 else none
    | none => none

/-- The alternatives preceding the parenthesized core in
`\+\+|--|~|\?\?=?|\?|:|\\(?=\n)|(…)=?`, in declared order; `\?\?=?`
expands greedily into `??=` before `??`, and the `\\(?=\n)` alternative
consumes only the backslash. -/
def opPreAlts : List (List Char × Nat) :=
  [(['+', '+'], 2), (['-', '-'], 2), (['~'], 1),
   (['?', '?', '='], 3), (['?', '?'], 2), (['?'], 1), ([':'], 1),
   (['\\', '\n'], 1)]

/-- `\+\+|--|~|\?\?=?|\?|:|\\(?=\n)|(<<|>>>?|==?|!=?|(?:\*\*|\|\||&&|[-<>+*%&|^/]))=?` -/
def mOperator (s : List Char) : Option Nat :=
  match firstLit opPreAlts s with
  | some n => some n
  | none => (opCore s).map fun k => if (s.drop k).head? = some '=' then k + 1 else k

/-- `[{(\[;,]` -/
def mPunctOpen (s : List Char) : Option Nat :=
  match s.head? with
  | some c =>
    if c = lbrace || c = '(' || c = '[' || c = ';' || c = ',' then some 1 else none
  | none => none

/-- `[})\].]` -/
def mPunctClose (s : List Char) : Option Nat :=
  match s.head? with
  | some c =>
    if c = rbrace || c = ')' || c = ']' || c = '.' then some 1 else none
  | none => none

/-- A whole-word alternation `(w1|w2|…)\b`: the first word of the list (in
declared order) that is a literal prefix of the input and is followed by a
non-word position, exactly as the backtracking alternation behaves. -/
def matchWordIn : List (List Char) → List Char → Option Nat
  | [], _ => none
  | w :: ws, s =>
    match stripPfx w s with
    | some t => if isWordOpt t.head? then matchWordIn ws s else some w.length
    | none => matchWordIn ws s

def opWords : List (List Char) :=
  ["typeof", "instanceof", "in", "void", "delete", "new"].map String.toList

def reserved1Words : List (List Char) :=
  ["constructor", "from", "as"].map String.toList

def kwWords : List (List Char) :=
  ["for", "in", "while", "do", "break", "return", "continue", "switch", "case",
   "default", "if", "else", "throw", "try", "catch", "finally", "yield",
   "await", "async", "this", "of", "static", "export", "import", "debugger",
   "extends", "super"].map String.toList

def declWords : List (List Char) :=
  ["var", "let", "const", "with", "function", "class"].map String.toList

def reserved2Words : List (List Char) :=
  ["abstract", "boolean", "byte", "char", "double", "enum", "final", "float",
   "goto", "implements", "int", "interface", "long", "native", "package",
   "private", "protected", "public", "short", "synchronized", "throws",
   "transient", "volatile"].map String.toList

def constWords : List (List Char) :=
  ["true", "false", "null", "NaN", "Infinity", "undefined"].map String.toList

def builtinWords : List (List Char) :=
  ["Array", "Boolean", "Date", "BigInt", "Function", "Math", "ArrayBuffer",
   "Number", "Object", "RegExp", "String", "Promise", "Proxy", "decodeURI",
   "decodeURIComponent", "encodeURI", "encodeURIComponent", "eval", "isFinite",
   "isNaN", "parseFloat", "parseInt", "DataView", "document", "window",
   "globalThis", "global", "Symbol", "Intl", "WeakSet", "WeakMap", "Set",
   "Map", "Reflect", "JSON", "Atomics", "Int8Array", "Int16Array",
   "Int32Array", "BigInt64Array", "Float32Array", "Float64Array",
   "Uint8ClampedArray", "Uint8Array", "Uint16Array", "Uint32Array",
   "BigUint64Array"].map String.toList

/-- The exception-name words of `((?:Eval|Internal|Range|Reference|Syntax|Type|URI)?Error)\b`,
expanded in the order the backtracking alternation tries them (the optional
prefix alternatives first, the bare `Error` for the empty prefix last); the
words are pairwise non-prefix so the expansion is exact. -/
def excWords : List (List Char) :=
  ["EvalError", "InternalError", "RangeError", "ReferenceError", "SyntaxError",
   "TypeError", "URIError", "Error"].map String.toList

/-- `(typeof|instanceof|in|void|delete|new)\b` -/
def mOpWord (s : List Char) : Option Nat := matchWordIn opWords s

/-- `\b(constructor|from|as)\b` — the leading `\b` inspects the previous
character. -/
def mReserved1 (prev : Option Char) (s : List Char) : Option Nat :=
  if wordBoundary prev s then matchWordIn reserved1Words s else none

/-- `(for|…|super)\b` -/
def mKeyword (s : List Char) : Option Nat := matchWordIn kwWords s

/-- `(var|let|const|with|function|class)\b` -/
def mDecl (s : List Char) : Option Nat := matchWordIn declWords s

/-- `(abstract|…|volatile)\b` -/
def mReserved2 (s : List Char) : Option Nat := matchWordIn reserved2Words s

/-- `(true|false|null|NaN|Infinity|undefined)\b` -/
def mConst (s : List Char) : Option Nat := matchWordIn constWords s

/-- `(Array|…|BigUint64Array)\b` -/
def mBuiltin (s : List Char) : Option Nat := matchWordIn builtinWords s

/-- `((?:Eval|Internal|Range|Reference|Syntax|Type|URI)?Error)\b` -/
def mException (s : List Char) : Option Nat := matchWordIn excWords s

/-- The character class `[\w,?.$\s]` of the super-call rule. -/
def isArgCh (c : Char) : Bool :=
  isWordCh c || c = ',' || c = '?' || c = '.' || c = '$' || isSpaceCh c

/-- `[a-zA-Z_?.$]` -/
def isFn1 (c : Char) : Bool :=
  isAlphaCh c || c = '_' || c = '?' || c = '.' || c = '$'

/-- `[\w?.$]` -/
def isFnPart (c : Char) : Bool :=
  isWordCh c || c = '?' || c = '.' || c = '$'

/-- `([a-zA-Z_?.$][\w?.$]*)(?=\(\) \{)` -/
def mFuncName (s : List Char) : Option Nat :=
  match s.head? with
  | none => none
  | some c =>
    if isFn1 c then
      let t := s.drop 1
      let k := countWhile isFnPart t
      if startsWith ['(', ')', ' ', lbrace] (t.drop k) then some (1 + k) else none
    else none

/-- The `\\u[a-fA-F0-9]{4}` escape alternative of the identifier classes. -/
def uEscLen (s : List Char) : Option Nat :=
  if startsWith ['\\', 'u'] s then
    let h := s.drop 2
    if (h.take 4).length = 4 && (h.take 4).all isHexCh then some 6 else none
  else none

/-- One `JS_IDENT_START` unit: an identifier-start character or a `\uXXXX`
escape (the two alternatives have disjoint first characters, `\` not being
an identifier-start character). -/
def identStartLen (s : List Char) : Option Nat :=
  match uEscLen s with
  | some n => some n
  | none =>
    match s.head? with
    | some c => if isIdentStartCh c then some 1 else none
    | none => none

/-- One `JS_IDENT_PART` unit. -/
def identPartLen (s : List Char) : Option Nat :=
  match uEscLen s with
  | some n => some n
  | none =>
    match s.head? with
    | some c => if isIdentPartCh c then some 1 else none
    | none => none

/-- Greedy `(?:JS_IDENT_PART)*`. -/
def identPartsAux : Nat → List Char → Nat
  | 0, _ => 0
  | fuel + 1, s =>
    match identPartLen s with
    | none => 0
    | some n => n + identPartsAux fuel (s.drop n)

/-- `JS_IDENT` -/
def mIdent (s : List Char) : Option Nat :=
  match identStartLen s with
  | none => none
  | some n => some (n + identPartsAux s.length (s.drop n))

/-- String body `(\\\\|\\[^\\]|[^q\\])*q` for quote character `q`: length up
to and including the closing quote (the two escape alternatives together
consume a backslash plus any following character). -/
def strBody (q : Char) : List Char → Option Nat
  | [] => none
  | c :: t =>
    if c = q then some 1
    else if c = '\\' then
      match t with
      | [] => none
      | _ :: u => (strBody q u).map (· + 2)
    else (strBody q t).map (· + 1)

/-- `"(\\\\|\\[^\\]|[^"\\])*"` -/
def mDString (s : List Char) : Option Nat :=
  if s.head? = some '"' then (strBody '"' (s.drop 1)).map (· + 1) else none

/-- `'(\\\\|\\[^\\]|[^'\\])*'` -/
def mSString (s : List Char) : Option Nat :=
  if s.head? = some squote then (strBody squote (s.drop 1)).map (· + 1) else none

/-- The backtick rules of `root` and `interp`. -/
def mBtick (s : List Char) : Option Nat :=
  if s.head? = some btick then some 1 else none

/-- `\\.` in `interp` (dot-matches-all: a backslash and any one character). -/
def mEsc (s : List Char) : Option Nat :=
  if s.head? = some '\\' then if 2 ≤ s.length then some 2 else none else none

/-- `\$\{` -/
def mInterpOpen (s : List Char) : Option Nat :=
  if startsWith ['$', lbrace] s then some 2 else none

/-- `\$` -/
def mDollar (s : List Char) : Option Nat :=
  if s.head? = some '$' then some 1 else none

/-- The plain-content run of `interp`. -/
def isInterpPlain (c : Char) : Bool :=
  !(c = btick) && !(c = '\\') && !(c = '$')

/-- The rule for a plain-content run inside a template literal. -/
def mInterpPlain (s : List Char) : Option Nat :=
  let k := countWhile isInterpPlain s
  if k = 0 then none else some k

/-- `\}` in `interp-inside`. -/
def mRBrace (s : List Char) : Option Nat :=
  if s.head? = some rbrace then some 1 else none

/-! ### The rule table -/

/-- Result of one rule match: the token segments to emit (label and length
of each capture group that carries a label — one segment for a plain rule)
and the total length the match consumes.  For every rule of the table except
the grouped super-call rule the two coincide. -/
structure MRes where
  segs : List (TokenType × Nat)
  len : Nat
  deriving DecidableEq, Repr

/-- A rule: matcher plus state-stack action. -/
structure Rule where
  m : Option Char → List Char → Option MRes
  act : Action

/-- Lift a plain-pattern matcher with one classification label to a rule. -/
def mkRule (f : Option Char → List Char → Option Nat) (L : TokenType)
    (act : Action) : Rule :=
  ⟨fun p s => (f p s).map fun n => ⟨[(L, n)], n⟩, act⟩

/-- Drop the previous-character argument for patterns that never inspect it. -/
def noPrev (f : List Char → Option Nat) : Option Char → List Char → Option Nat :=
  fun _ s => f s

def superWord : List Char := String.toList "super"

/-- `(super)(\s*)(\([\w,?.$\s]+\s*\))` with `bygroups(Keyword, Whitespace)`:
the first two groups carry labels, the parenthesized-arguments group is
consumed without a label of its own. -/
def mSuper (s : List Char) : Option MRes :=
  match stripPfx superWord s with
  | none => none
  | some t =>
    let n2 := countWhile isSpaceCh t
    if (t.drop n2).head? = some '(' then
      let u := t.drop (n2 + 1)
      let a := countWhile isArgCh u
      if a = 0 then none
      else if (u.drop a).head? = some ')' then
        some ⟨[(.Keyword, 5), (.Whitespace, n2)], 5 + n2 + 1 + a + 1⟩
      else none
    else none

def superRule : Rule := ⟨fun _ s => mSuper s, .push .slashstartsregex⟩

def keywordRule : Rule := mkRule (noPrev mKeyword) .Keyword (.push .slashstartsregex)

def lineStartRule : Rule := mkRule mLineStart .TText (.push .slashstartsregex)

def slashAheadRule : Rule := mkRule (noPrev mSlashAhead) .TText (.popPush .badregex)

/-- The `commentsandwhitespace` state, included into `root` and
`slashstartsregex`. -/
def cswRules : List Rule :=
  [mkRule (noPrev mWs) .Whitespace .stay,
   mkRule (noPrev mHtmlComment) .Comment .stay,
   mkRule (noPrev mSlComment) .CommentSingle .stay,
   mkRule (noPrev mMlComment) .CommentMultiline .stay]

def hashbangRule : Rule := mkRule mHashbang .CommentHashbang .stay

/-- The `root` rules between the include of `commentsandwhitespace` and the
big keyword rule, in declared order. -/
def rootRules1 : List Rule :=
  cswRules ++
  [mkRule (noPrev mNumBin) .NumberBin .stay,
   mkRule (noPrev mNumOct) .NumberOct .stay,
   mkRule (noPrev mNumHex) .NumberHex .stay,
   mkRule (noPrev mNumBigInt) .NumberInteger .stay,
   mkRule (noPrev mNumFloat) .NumberFloat .stay,
   mkRule (noPrev mSpread) .Punctuation .stay,
   mkRule (noPrev mOperator) .Operator (.push .slashstartsregex),
   mkRule (noPrev mPunctOpen) .Punctuation (.push .slashstartsregex),
   mkRule (noPrev mPunctClose) .Punctuation .stay,
   mkRule (noPrev mOpWord) .OperatorWord (.push .slashstartsregex),
   mkRule mReserved1 .KeywordReserved .stay]

/-- The `root` rules between the keyword rule and the super-call rule. -/
def rootRulesB : List Rule :=
  [mkRule (noPrev mDecl) .KeywordDeclaration (.push .slashstartsregex),
   mkRule (noPrev mReserved2) .KeywordReserved .stay,
   mkRule (noPrev mConst) .KeywordConstant .stay,
   mkRule (noPrev mBuiltin) .NameBuiltin .stay,
   mkRule (noPrev mException) .NameException .stay]

/-- The `root` rules after the super-call rule. -/
def rootRulesC : List Rule :=
  [mkRule (noPrev mFuncName) .NameOther (.push .slashstartsregex),
   mkRule (noPrev mIdent) .NameOther .stay,
   mkRule (noPrev mDString) .StringDouble .stay,
   mkRule (noPrev mSString) .StringSingle .stay,
   mkRule (noPrev mBtick) .StringBacktick (.push .interp)]

/-- The `root` state, in declared order, with `commentsandwhitespace`
flattened in at its include position (inside `rootRules1`). -/
def rootRules : List Rule :=
  hashbangRule :: lineStartRule ::
    (rootRules1 ++ keywordRule :: (rootRulesB ++ superRule :: rootRulesC))

/-- The `slashstartsregex` state (its trailing `default('#pop')` is carried
by `hasDefaultPop`). -/
def sssrRules : List Rule :=
  cswRules ++
  [mkRule (noPrev mRegex) .StringRegex .pop,
   slashAheadRule]

/-- The `badregex` state. -/
def badregexRules : List Rule :=
  [mkRule (noPrev mNewline) .Whitespace .pop]

/-- The `interp` state. -/
def interpRules : List Rule :=
  [mkRule (noPrev mBtick) .StringBacktick .pop,
   mkRule (noPrev mEsc) .StringBacktick .stay,
   mkRule (noPrev mInterpOpen) .StringInterpol (.push .interpInside),
   mkRule (noPrev mDollar) .StringBacktick .stay,
   mkRule (noPrev mInterpPlain) .StringBacktick .stay]

/-- The `interp-inside` state: the `\}` rule followed by the included
`root` rules. -/
def interpInsideRules : List Rule :=
  mkRule (noPrev mRBrace) .StringInterpol .pop :: rootRules

def rulesOf : St → List Rule
  | .root => rootRules
  | .slashstartsregex => sssrRules
  | .badregex => badregexRules
  | .interp => interpRules
  | .interpInside => interpInsideRules

/-- Only `slashstartsregex` declares a `default('#pop')` fallback. -/
def hasDefaultPop : St → Bool
  | .slashstartsregex => true
  | _ => false

/-! ### The scanning loop

Modelled from the spec: the scanning loop itself lives in the external
syntax-highlighting framework and is not part of this repository; the spec,
section 4.1, fixes its dispatch semantics — try the top state's rules in
order at the current position, emit the matched groups' tokens and apply the
rule's stack action on the first match, apply the state's default action
without consuming input when no rule matches and a default exists, and
otherwise emit the current character as an `Error` token and advance by one;
the stack starts as `[root]`. -/

/-- Top of the state stack (`root` is the guarded fallback for the
never-reached empty stack). -/
def topSt (stk : List St) : St := stk.headD .root

def applyAct : Action → List St → List St
  | .stay, stk => stk
  | .pop, stk => stk.tail
  | .push s, stk => s :: stk
  | .popPush s, stk => s :: stk.tail

/-- First matching rule of a list, in order. -/
def firstMatch : List Rule → Option Char → List Char → Option (MRes × Action)
  | [], _, _ => none
  | r :: rs, prev, s =>
    match r.m prev s with
    | some mr => some (mr, r.act)
    | none => firstMatch rs prev s

/-- Emit the tokens of the matched segments, consuming the corresponding
spans of the input in order. -/
def emitSegs : List (TokenType × Nat) → List Char → List Token
  | [], _ => []
  | (L, k) :: rest, s => (L, s.take k) :: emitSegs rest (s.drop k)

/-- The character preceding the new position after consuming `n` characters. -/
def nextPrev (prev : Option Char) (s : List Char) (n : Nat) : Option Char :=
  if n = 0 then prev else (s.take n).getLast?.orElse fun _ => prev

/-- One dispatch step at the current position. -/
def step (prev : Option Char) (s : List Char) (stk : List St) :
    List Token × Nat × List St :=
  match firstMatch (rulesOf (topSt stk)) prev s with
  | some (mr, act) => (emitSegs mr.segs s, mr.len, applyAct act stk)
  | none =>
    if hasDefaultPop (topSt stk) then ([], 0, stk.tail)
    else
      match s with
      | c :: _ => ([(.Error, [c])], 1, stk)
      | [] => ([], 0, stk)

/-- The scan loop; the fuel argument only forces termination and is chosen
large enough below (`loopAux_covers`) never to run out. -/
def loopAux : Nat → Option Char → List Char → List St → List Token
  | 0, _, _, _ => []
  | fuel + 1, prev, s, stk =>
    match s with
    | [] => []
    | _ :: _ =>
      let r := step prev s stk
      r.1 ++ loopAux fuel (nextPrev prev s r.2.1) (s.drop r.2.1) r.2.2

/-- Scan a whole input: fresh position, fresh `[root]` stack. -/
def tokenize (s : List Char) : List Token :=
  loopAux (4 * s.length + 3) none s [.root]

/-- Concatenation of the matched-text spans of a token sequence. -/
def tokensText (ts : List Token) : List Char := (ts.map Prod.snd).flatten

/-- The tokens with a non-empty span (zero-width lookahead rules emit
zero-length marker tokens; a span-level statement ignores those). -/
def spans (ts : List Token) : List Token := ts.filter fun t => !t.2.isEmpty

/-- Two scans of the same text in sequence: each call builds its own fresh
position and state stack, there being no other runtime state. -/
def scanTwice (s : List Char) : List Token × List Token := (tokenize s, tokenize s)

/-- Total length of the labelled segments of a match result. -/
def segsSum (segs : List (TokenType × Nat)) : Nat := (segs.map Prod.snd).sum

/-- A rule is coverage-well-formed when its labelled segments account for
everything the match consumes. -/
def WFr (r : Rule) : Prop :=
  ∀ p s mr, r.m p s = some mr → segsSum mr.segs = mr.len

/-- A rule is positive when any match of it consumes at least one
character. -/
def PosR (r : Rule) : Prop :=
  ∀ p s mr, r.m p s = some mr → 1 ≤ mr.len

/-- The stack invariant: non-empty, `root` at the bottom and only there. -/
def goodStack (stk : List St) : Prop :=
  stk ≠ [] ∧ stk.getLast? = some .root ∧ .root ∉ stk.dropLast

instance (stk : List St) : Decidable (goodStack stk) :=
  inferInstanceAs
    (Decidable (stk ≠ [] ∧ stk.getLast? = some St.root ∧ St.root ∉ stk.dropLast))

/-- No rule ever pushes `root` (whether by plain push or by
pop-and-push). -/
def pushTargetOK : Action → Bool
  | .push s1 => !(s1 == .root)
  | .popPush s1 => !(s1 == .root)
  | _ => true

/-- Pop-free actions (the `root` rules only stay or push). -/
def isPopFree : Action → Bool
  | .pop => false
  | .popPush _ => false
  | _ => true

/-- All words of the whole-word alternations in `root`: operator words,
reserved words, keywords, declaration keywords, constants, builtin names
and exception names, in table order. -/
def keywordFamilyWords : List (List Char) :=
  opWords ++ reserved1Words ++ kwWords ++ declWords ++ reserved2Words ++
  constWords ++ builtinWords ++ excWords

/-- Scanning the word alone yields exactly one token, carrying the whole
word, whose label is not the generic identifier label `Name.Other`. -/
def oneKeywordToken (w : List Char) : Bool :=
  match tokenize w with
  | [(L, txt)] => txt == w && !(L == .NameOther)
  | _ => false

/-! ### Basic lemmas about the dispatch machinery -/

theorem countWhile_le (p : Char → Bool) : ∀ s : List Char, countWhile p s ≤ s.length := by
  intro s
  induction s with
  | nil => simp [countWhile]
  | cons c t ih =>
    simp only [countWhile, List.length_cons]
    split <;> omega

theorem stripPfx_len {pfx s t : List Char} (h : stripPfx pfx s = some t) :
    s.length = pfx.length + t.length := by
  induction pfx generalizing s with
  | nil => simp [stripPfx] at h; simp [← h]
  | cons p ps ih =>
    cases s with
    | nil => simp [stripPfx] at h
    | cons c u =>
      simp only [stripPfx] at h
      split at h
      · have := ih h; simp [this]; omega
      · exact absurd h (by simp)


theorem stripPfx_eq {pfx s t : List Char} (h : stripPfx pfx s = some t) :
    s = pfx ++ t := by
  induction pfx generalizing s with
  | nil => simpa [stripPfx, eq_comm] using h.symm
  | cons p ps ih =>
    cases s with
    | nil => simp [stripPfx] at h
    | cons c u =>
      simp only [stripPfx] at h
      split at h
      · simp_all [ih h]
      · exact absurd h (by simp)

theorem wfr_mk (f : Option Char → List Char → Option Nat) (L : TokenType)
    (a : Action) : WFr (mkRule f L a) := by
  intro p s mr h
  simp only [mkRule, Option.map_eq_some'] at h
  obtain ⟨n, -, rfl⟩ := h
  simp [segsSum]

theorem posr_mk {f : Option Char → List Char → Option Nat} (L : TokenType)
    (a : Action) (hf : ∀ p s n, f p s = some n → 1 ≤ n) :
    PosR (mkRule f L a) := by
  intro p s mr h
  simp only [mkRule, Option.map_eq_some'] at h
  obtain ⟨n, hn, rfl⟩ := h
  exact hf p s n hn

theorem firstMatch_append (xs ys : List Rule) (p : Option Char) (s : List Char) :
    firstMatch (xs ++ ys) p s =
      (match firstMatch xs p s with
       | some r => some r
       | none => firstMatch ys p s) := by
  induction xs with
  | nil => simp [firstMatch]
  | cons r rs ih =>
    simp only [List.cons_append, firstMatch]
    cases r.m p s <;> simp [ih]

theorem firstMatch_mem {rs : List Rule} {p : Option Char} {s : List Char}
    {mr : MRes} {act : Action} (h : firstMatch rs p s = some (mr, act)) :
    ∃ r ∈ rs, r.m p s = some mr ∧ act = r.act := by
  induction rs with
  | nil => simp [firstMatch] at h
  | cons r rest ih =>
    simp only [firstMatch] at h
    cases hm : r.m p s with
    | some mr0 =>
      rw [hm] at h
      refine ⟨r, by simp, ?_, ?_⟩ <;> simp_all
    | none =>
      rw [hm] at h
      obtain ⟨r0, hr0, hm0, ha0⟩ := ih h
      exact ⟨r0, by simp [hr0], hm0, ha0⟩

theorem firstMatch_forall_none {rs : List Rule} {p : Option Char}
    {s : List Char} (h : firstMatch rs p s = none) :
    ∀ r ∈ rs, r.m p s = none := by
  induction rs with
  | nil => simp
  | cons r rest ih =>
    simp only [firstMatch] at h
    cases hm : r.m p s with
    | some mr0 => rw [hm] at h; exact absurd h (by simp)
    | none =>
      rw [hm] at h
      intro r0 hr0
      rcases List.mem_cons.mp hr0 with rfl | hr0
      · exact hm
      · exact ih h r0 hr0

theorem firstMatch_wf {rs : List Rule} (hwf : ∀ r ∈ rs, WFr r)
    {p : Option Char} {s : List Char} {mr : MRes} {act : Action}
    (h : firstMatch rs p s = some (mr, act)) : segsSum mr.segs = mr.len := by
  obtain ⟨r, hr, hm, -⟩ := firstMatch_mem h
  exact hwf r hr p s mr hm

theorem firstMatch_pos {rs : List Rule} (hp : ∀ r ∈ rs, PosR r)
    {p : Option Char} {s : List Char} {mr : MRes} {act : Action}
    (h : firstMatch rs p s = some (mr, act)) : 1 ≤ mr.len := by
  obtain ⟨r, hr, hm, -⟩ := firstMatch_mem h
  exact hp r hr p s mr hm

theorem tokensText_append (a b : List Token) :
    tokensText (a ++ b) = tokensText a ++ tokensText b := by
  simp [tokensText]

theorem tokensText_emitSegs (segs : List (TokenType × Nat)) (s : List Char) :
    tokensText (emitSegs segs s) = s.take (segsSum segs) := by
  induction segs generalizing s with
  | nil => simp [emitSegs, tokensText, segsSum]
  | cons seg rest ih =>
    obtain ⟨L, k⟩ := seg
    simp only [emitSegs, segsSum, List.map_cons, List.sum_cons, tokensText,
      List.flatten_cons] at *
    rw [show k + (rest.map Prod.snd).sum = k + segsSum rest from rfl]
    rw [List.take_add]
    exact congrArg (s.take k ++ ·) (ih (s.drop k))

theorem applyAct_length (a : Action) (stk : List St) :
    (applyAct a stk).length ≤ stk.length + 1 := by
  cases a with
  | stay => simp [applyAct]
  | pop => simp [applyAct, List.length_tail]; omega
  | push s => simp [applyAct]
  | popPush s => simp [applyAct, List.length_tail]

/-! ### Positivity: every rule except the two zero-width lookahead rules
consumes at least one character whenever it matches. -/

theorem pos_mWs {s : List Char} {n : Nat} (h : mWs s = some n) : 1 ≤ n := by
  simp only [mWs] at h
  split at h
  · exact absurd h (by simp)
  · simp only [Option.some_inj] at h; omega

theorem pos_mHtmlComment {s : List Char} {n : Nat}
    (h : mHtmlComment s = some n) : 1 ≤ n := by
  simp only [mHtmlComment] at h
  split at h
  · simp only [Option.some_inj] at h; omega
  · exact absurd h (by simp)

theorem pos_mSlComment {s : List Char} {n : Nat}
    (h : mSlComment s = some n) : 1 ≤ n := by
  simp only [mSlComment] at h
  split at h
  · simp only [Option.some_inj] at h; omega
  · exact absurd h (by simp)

theorem pos_mMlComment {s : List Char} {n : Nat}
    (h : mMlComment s = some n) : 1 ≤ n := by
  simp only [mMlComment] at h
  split at h
  · obtain ⟨k, -, rfl⟩ := Option.map_eq_some'.mp h; omega
  · exact absurd h (by simp)

theorem pos_mRegex {s : List Char} {n : Nat} (h : mRegex s = some n) : 1 ≤ n := by
  simp only [mRegex] at h
  split at h
  · split at h
    · exact absurd h (by simp)
    · split at h
      · split at h
        · exact absurd h (by simp)
        · simp only [Option.some_inj] at h; omega
      · exact absurd h (by simp)
  · exact absurd h (by simp)

theorem pos_mNewline {s : List Char} {n : Nat} (h : mNewline s = some n) : 1 ≤ n := by
  simp only [mNewline] at h
  split at h
  · simp only [Option.some_inj] at h; omega
  · exact absurd h (by simp)

theorem pos_mHashbang {p : Option Char} {s : List Char} {n : Nat}
    (h : mHashbang p s = some n) : 1 ≤ n := by
  simp only [mHashbang] at h
  split at h
  · exact absurd h (by simp)
  · split at h
    · simp only [Option.some_inj] at h; omega
    · split at h
      · simp only [Option.some_inj] at h; omega
      · exact absurd h (by simp)

theorem pos_mNumBin {s : List Char} {n : Nat} (h : mNumBin s = some n) : 1 ≤ n := by
  simp only [mNumBin] at h
  split at h
  · split at h
    · exact absurd h (by simp)
    · simp only [Option.some_inj] at h; omega
  · exact absurd h (by simp)

theorem pos_mNumOct {s : List Char} {n : Nat} (h : mNumOct s = some n) : 1 ≤ n := by
  simp only [mNumOct] at h
  split at h
  · split at h
    · split at h
      · exact absurd h (by simp)
      · simp only [Option.some_inj] at h; omega
    · split at h
      · exact absurd h (by simp)
      · simp only [Option.some_inj] at h; omega
  · exact absurd h (by simp)

theorem pos_mNumHex {s : List Char} {n : Nat} (h : mNumHex s = some n) : 1 ≤ n := by
  simp only [mNumHex] at h
  split at h
  · split at h
    · exact absurd h (by simp)
    · simp only [Option.some_inj] at h; omega
  · exact absurd h (by simp)

theorem pos_mNumBigInt {s : List Char} {n : Nat}
    (h : mNumBigInt s = some n) : 1 ≤ n := by
  simp only [mNumBigInt] at h
  split at h
  · exact absurd h (by simp)
  · split at h
    · simp only [Option.some_inj] at h; omega
    · exact absurd h (by simp)

theorem pos_mNumFloat {s : List Char} {n : Nat}
    (h : mNumFloat s = some n) : 1 ≤ n := by
  simp only [mNumFloat] at h
  split at h
  · split at h
    · exact absurd h (by simp)
    · simp only [Option.some_inj] at h; omega
  · split at h
    · exact absurd h (by simp)
    · split at h
      · simp only [Option.some_inj] at h; omega
      · simp only [Option.some_inj] at h
        have : 1 ≤ countWhile isDigitCh s := by omega
        omega

theorem pos_mSpread {s : List Char} {n : Nat} (h : mSpread s = some n) : 1 ≤ n := by
  simp only [mSpread] at h
  split at h
  · simp only [Option.some_inj] at h; omega
  · split at h
    · simp only [Option.some_inj] at h; omega
    · exact absurd h (by simp)

theorem pos_firstLit {alts : List (List Char × Nat)}
    (ha : ∀ e ∈ alts, 1 ≤ e.2) {s : List Char} {n : Nat}
    (h : firstLit alts s = some n) : 1 ≤ n := by
  induction alts with
  | nil => simp [firstLit] at h
  | cons e rest ih =>
    obtain ⟨w, k⟩ := e
    simp only [firstLit] at h
    split at h
    · simp only [Option.some_inj] at h
      subst h
      exact ha (w, k) (by simp)
    · exact ih (fun e0 he0 => ha e0 (by simp [he0])) h

theorem pos_opCore {s : List Char} {n : Nat} (h : opCore s = some n) : 1 ≤ n := by
  simp only [opCore] at h
  cases hf : firstLit opCoreAlts s with
  | some k =>
    simp only [hf, Option.some_inj] at h
    subst h
    exact pos_firstLit (by decide) hf
  | none =>
    simp only [hf] at h
    repeat' split at h
    all_goals first
      | (simp only [Option.some_inj] at h; omega)
      | exact absurd h (by simp)

theorem pos_mOperator {s : List Char} {n : Nat}
    (h : mOperator s = some n) : 1 ≤ n := by
  simp only [mOperator] at h
  cases hf : firstLit opPreAlts s with
  | some k =>
    simp only [hf, Option.some_inj] at h
    subst h
    exact pos_firstLit (by decide) hf
  | none =>
    simp only [hf] at h
    obtain ⟨k, hk, rfl⟩ := Option.map_eq_some'.mp h
    have := pos_opCore hk
    split <;> omega

theorem pos_mPunctOpen {s : List Char} {n : Nat}
    (h : mPunctOpen s = some n) : 1 ≤ n := by
  simp only [mPunctOpen] at h
  repeat' split at h
  all_goals first
    | (simp only [Option.some_inj] at h; omega)
    | exact absurd h (by simp)

theorem pos_mPunctClose {s : List Char} {n : Nat}
    (h : mPunctClose s = some n) : 1 ≤ n := by
  simp only [mPunctClose] at h
  repeat' split at h
  all_goals first
    | (simp only [Option.some_inj] at h; omega)
    | exact absurd h (by simp)

theorem pos_matchWordIn {ws : List (List Char)} (hw : ∀ w ∈ ws, w ≠ [])
    {s : List Char} {n : Nat} (h : matchWordIn ws s = some n) : 1 ≤ n := by
  induction ws with
  | nil => simp [matchWordIn] at h
  | cons w rest ih =>
    have hrest : ∀ w0 ∈ rest, w0 ≠ [] := fun w0 hw0 => hw w0 (by simp [hw0])
    simp only [matchWordIn] at h
    cases hp : stripPfx w s with
    | some t =>
      simp only [hp] at h
      split at h
      · exact ih hrest h
      · simp only [Option.some_inj] at h
        subst h
        have hne : w ≠ [] := hw w (by simp)
        cases w with
        | nil => exact absurd rfl hne
        | cons a b => simp
    | none =>
      simp only [hp] at h
      exact ih hrest h

theorem pos_mFuncName {s : List Char} {n : Nat}
    (h : mFuncName s = some n) : 1 ≤ n := by
  simp only [mFuncName] at h
  repeat' split at h
  all_goals first
    | (simp only [Option.some_inj] at h; omega)
    | exact absurd h (by simp)

theorem pos_uEscLen {s : List Char} {n : Nat} (h : uEscLen s = some n) : n = 6 := by
  simp only [uEscLen] at h
  split at h
  · split at h
    · simp only [Option.some_inj] at h; omega
    · exact absurd h (by simp)
  · exact absurd h (by simp)

theorem pos_identStartLen {s : List Char} {n : Nat}
    (h : identStartLen s = some n) : 1 ≤ n := by
  simp only [identStartLen] at h
  cases he : uEscLen s with
  | some k =>
    simp only [he, Option.some_inj] at h
    have := pos_uEscLen he
    omega
  | none =>
    simp only [he] at h
    repeat' split at h
    all_goals first
      | (simp only [Option.some_inj] at h; omega)
      | exact absurd h (by simp)

theorem pos_mIdent {s : List Char} {n : Nat} (h : mIdent s = some n) : 1 ≤ n := by
  simp only [mIdent] at h
  cases hs : identStartLen s with
  | some k =>
    rw [hs] at h
    simp only [Option.some_inj] at h
    have := pos_identStartLen hs
    omega
  | none => rw [hs] at h; exact absurd h (by simp)

theorem pos_mDString {s : List Char} {n : Nat}
    (h : mDString s = some n) : 1 ≤ n := by
  simp only [mDString] at h
  split at h
  · obtain ⟨k, -, rfl⟩ := Option.map_eq_some'.mp h; omega
  · exact absurd h (by simp)

theorem pos_mSString {s : List Char} {n : Nat}
    (h : mSString s = some n) : 1 ≤ n := by
  simp only [mSString] at h
  split at h
  · obtain ⟨k, -, rfl⟩ := Option.map_eq_some'.mp h; omega
  · exact absurd h (by simp)

theorem pos_mBtick {s : List Char} {n : Nat} (h : mBtick s = some n) : 1 ≤ n := by
  simp only [mBtick] at h
  split at h
  · simp only [Option.some_inj] at h; omega
  · exact absurd h (by simp)

theorem pos_mEsc {s : List Char} {n : Nat} (h : mEsc s = some n) : 1 ≤ n := by
  simp only [mEsc] at h
  repeat' split at h
  all_goals first
    | (simp only [Option.some_inj] at h; omega)
    | exact absurd h (by simp)

theorem pos_mInterpOpen {s : List Char} {n : Nat}
    (h : mInterpOpen s = some n) : 1 ≤ n := by
  simp only [mInterpOpen] at h
  split at h
  · simp only [Option.some_inj] at h; omega
  · exact absurd h (by simp)

theorem pos_mDollar {s : List Char} {n : Nat} (h : mDollar s = some n) : 1 ≤ n := by
  simp only [mDollar] at h
  split at h
  · simp only [Option.some_inj] at h; omega
  · exact absurd h (by simp)

theorem pos_mInterpPlain {s : List Char} {n : Nat}
    (h : mInterpPlain s = some n) : 1 ≤ n := by
  simp only [mInterpPlain] at h
  split at h
  · exact absurd h (by simp)
  · simp only [Option.some_inj] at h; omega

theorem pos_mRBrace {s : List Char} {n : Nat} (h : mRBrace s = some n) : 1 ≤ n := by
  simp only [mRBrace] at h
  split at h
  · simp only [Option.some_inj] at h; omega
  · exact absurd h (by simp)

theorem pos_mSuper {s : List Char} {mr : MRes} (h : mSuper s = some mr) :
    1 ≤ mr.len := by
  simp only [mSuper] at h
  cases hp : stripPfx superWord s with
  | some t =>
    simp only [hp] at h
    repeat' split at h
    all_goals first
      | (obtain rfl := Option.some_inj.mp h; simp)
      | exact absurd h (by simp)
  | none => simp only [hp] at h; exact absurd h (by simp)

/-! ### The super-call rule is shadowed by the keyword rule

Whenever `(super)(\s*)(\([\w,?.$\s]+\s*\))` matches, the input starts with
the word `super` followed by a space or `(`, both non-word characters, so
the earlier `(for|…|super)\b` rule already matches; under first-match-wins
the super-call rule is therefore never selected. -/

theorem isSpaceCh_not_word {c : Char} (h : isSpaceCh c = true) :
    isWordCh c = false := by
  simp only [isSpaceCh, Bool.or_eq_true, decide_eq_true_eq] at h
  rcases h with ((((h | h) | h) | h) | h) | h <;> subst h <;> decide

theorem mKeyword_super (c : Char) (t : List Char) (h : isWordCh c = false) :
    mKeyword ('s' :: 'u' :: 'p' :: 'e' :: 'r' :: c :: t) = some 5 := by
  have e : mKeyword ('s' :: 'u' :: 'p' :: 'e' :: 'r' :: c :: t)
      = if isWordCh c = true then none else some 5 := rfl
  rw [e, h]
  simp

theorem mSuper_dead {s : List Char} {mr : MRes} (h : mSuper s = some mr) :
    mKeyword s ≠ none := by
  simp only [mSuper] at h
  cases hp : stripPfx superWord s with
  | none => simp [hp] at h
  | some t =>
    simp only [hp] at h
    have hs := stripPfx_eq hp
    cases t with
    | nil => simp [countWhile] at h
    | cons c t2 =>
      have hcw : isWordCh c = false := by
        by_cases hsp : isSpaceCh c = true
        · exact isSpaceCh_not_word hsp
        · have h0 : countWhile isSpaceCh (c :: t2) = 0 := by
            simp [countWhile, hsp]
          rw [h0] at h
          simp only [List.drop_zero, List.head?_cons] at h
          split at h
          next hparen =>
            obtain rfl : c = '(' := by simpa using hparen
            decide
          next hparen => exact absurd h (by simp)
      have hsplit : s = 's' :: 'u' :: 'p' :: 'e' :: 'r' :: c :: t2 := by
        simpa [superWord] using hs
      rw [hsplit, mKeyword_super c t2 hcw]
      simp

/-! ### Per-state facts: well-formedness, positivity, and the shape of the
zero-width matches -/

theorem wf_csw_all : ∀ r ∈ cswRules, WFr r := by
  intro r hr
  fin_cases hr <;> exact wfr_mk _ _ _

theorem wf_sssr_all : ∀ r ∈ sssrRules, WFr r := by
  intro r hr
  fin_cases hr <;> exact wfr_mk _ _ _

theorem wf_badregex_all : ∀ r ∈ badregexRules, WFr r := by
  intro r hr
  fin_cases hr
  exact wfr_mk _ _ _

theorem wf_interp_all : ∀ r ∈ interpRules, WFr r := by
  intro r hr
  fin_cases hr <;> exact wfr_mk _ _ _

theorem wf_rootRules1_all : ∀ r ∈ rootRules1, WFr r := by
  intro r hr
  fin_cases hr <;> exact wfr_mk _ _ _

theorem wf_rootRulesB_all : ∀ r ∈ rootRulesB, WFr r := by
  intro r hr
  fin_cases hr <;> exact wfr_mk _ _ _

theorem wf_rootRulesC_all : ∀ r ∈ rootRulesC, WFr r := by
  intro r hr
  fin_cases hr <;> exact wfr_mk _ _ _

theorem fm_append_elim {xs ys : List Rule} {p : Option Char} {s : List Char}
    {mr : MRes} {act : Action}
    (h : firstMatch (xs ++ ys) p s = some (mr, act)) :
    firstMatch xs p s = some (mr, act) ∨
      (firstMatch xs p s = none ∧ firstMatch ys p s = some (mr, act)) := by
  rw [firstMatch_append] at h
  cases hx : firstMatch xs p s with
  | some r => simp only [hx] at h; exact Or.inl h
  | none => simp only [hx] at h; exact Or.inr ⟨rfl, h⟩

theorem fm_cons_elim {r : Rule} {rs : List Rule} {p : Option Char}
    {s : List Char} {mr : MRes} {act : Action}
    (h : firstMatch (r :: rs) p s = some (mr, act)) :
    (r.m p s = some mr ∧ act = r.act) ∨
      (r.m p s = none ∧ firstMatch rs p s = some (mr, act)) := by
  simp only [firstMatch] at h
  cases hm : r.m p s with
  | some mr0 =>
    simp only [hm, Option.some_inj, Prod.mk.injEq] at h
    exact Or.inl ⟨by simp [h.1], h.2.symm⟩
  | none => simp only [hm] at h; exact Or.inr ⟨rfl, h⟩

/-- Coverage-well-formedness of any selected `root` match: every rule of
`root` is a single-label rule except the super-call rule, and whenever the
super-call rule matches, the earlier keyword rule matches too, so
first-match-wins never selects the super-call rule. -/
theorem wf_root {p : Option Char} {s : List Char} {mr : MRes} {act : Action}
    (h : firstMatch rootRules p s = some (mr, act)) :
    segsSum mr.segs = mr.len := by
  rw [rootRules] at h
  rcases fm_cons_elim h with ⟨hm, rfl⟩ | ⟨-, h⟩
  · exact wfr_mk _ _ _ p s mr hm
  · rcases fm_cons_elim h with ⟨hm, rfl⟩ | ⟨-, h⟩
    · exact wfr_mk _ _ _ p s mr hm
    · rcases fm_append_elim h with h3 | ⟨-, h⟩
      · exact firstMatch_wf wf_rootRules1_all h3
      · rcases fm_cons_elim h with ⟨hm, rfl⟩ | ⟨h5, h⟩
        · exact wfr_mk _ _ _ p s mr hm
        · rcases fm_append_elim h with h6 | ⟨-, h⟩
          · exact firstMatch_wf wf_rootRulesB_all h6
          · rcases fm_cons_elim h with ⟨hm, rfl⟩ | ⟨-, h⟩
            · have hk : mKeyword s = none := by
                simpa [keywordRule, mkRule, noPrev] using h5
              exact absurd hk (mSuper_dead hm)
            · exact firstMatch_wf wf_rootRulesC_all h

theorem wf_interpInside {p : Option Char} {s : List Char} {mr : MRes}
    {act : Action} (h : firstMatch interpInsideRules p s = some (mr, act)) :
    segsSum mr.segs = mr.len := by
  rw [interpInsideRules] at h
  rcases fm_cons_elim h with ⟨hm, rfl⟩ | ⟨-, h⟩
  · exact wfr_mk _ _ _ p s mr hm
  · exact wf_root h

/-- Coverage-well-formedness of any selected match, for every state. -/
theorem wf_state (S : St) {p : Option Char} {s : List Char} {mr : MRes}
    {act : Action} (h : firstMatch (rulesOf S) p s = some (mr, act)) :
    segsSum mr.segs = mr.len := by
  cases S with
  | root => exact wf_root h
  | slashstartsregex => exact firstMatch_wf wf_sssr_all h
  | badregex => exact firstMatch_wf wf_badregex_all h
  | interp => exact firstMatch_wf wf_interp_all h
  | interpInside => exact wf_interpInside h

theorem pos_csw_all : ∀ r ∈ cswRules, PosR r := by
  intro r hr
  fin_cases hr
  · exact posr_mk _ _ fun p s n h => pos_mWs h
  · exact posr_mk _ _ fun p s n h => pos_mHtmlComment h
  · exact posr_mk _ _ fun p s n h => pos_mSlComment h
  · exact posr_mk _ _ fun p s n h => pos_mMlComment h

theorem pos_badregex_all : ∀ r ∈ badregexRules, PosR r := by
  intro r hr
  fin_cases hr
  exact posr_mk _ _ fun p s n h => pos_mNewline h

theorem pos_interp_all : ∀ r ∈ interpRules, PosR r := by
  intro r hr
  fin_cases hr
  · exact posr_mk _ _ fun p s n h => pos_mBtick h
  · exact posr_mk _ _ fun p s n h => pos_mEsc h
  · exact posr_mk _ _ fun p s n h => pos_mInterpOpen h
  · exact posr_mk _ _ fun p s n h => pos_mDollar h
  · exact posr_mk _ _ fun p s n h => pos_mInterpPlain h

theorem pos_mReserved1 {p : Option Char} {s : List Char} {n : Nat}
    (h : mReserved1 p s = some n) : 1 ≤ n := by
  simp only [mReserved1] at h
  split at h
  · exact pos_matchWordIn (by decide) h
  · exact absurd h (by simp)

theorem pos_rootRules1_all : ∀ r ∈ rootRules1, PosR r := by
  intro r hr
  fin_cases hr
  · exact posr_mk _ _ fun p s n h => pos_mWs h
  · exact posr_mk _ _ fun p s n h => pos_mHtmlComment h
  · exact posr_mk _ _ fun p s n h => pos_mSlComment h
  · exact posr_mk _ _ fun p s n h => pos_mMlComment h
  · exact posr_mk _ _ fun p s n h => pos_mNumBin h
  · exact posr_mk _ _ fun p s n h => pos_mNumOct h
  · exact posr_mk _ _ fun p s n h => pos_mNumHex h
  · exact posr_mk _ _ fun p s n h => pos_mNumBigInt h
  · exact posr_mk _ _ fun p s n h => pos_mNumFloat h
  · exact posr_mk _ _ fun p s n h => pos_mSpread h
  · exact posr_mk _ _ fun p s n h => pos_mOperator h
  · exact posr_mk _ _ fun p s n h => pos_mPunctOpen h
  · exact posr_mk _ _ fun p s n h => pos_mPunctClose h
  · exact posr_mk _ _ fun p s n h => pos_matchWordIn (by decide) h
  · exact posr_mk _ _ fun p s n h => pos_mReserved1 h

theorem pos_rootRulesB_all : ∀ r ∈ rootRulesB, PosR r := by
  intro r hr
  fin_cases hr
  · exact posr_mk _ _ fun p s n h => pos_matchWordIn (by decide) h
  · exact posr_mk _ _ fun p s n h => pos_matchWordIn (by decide) h
  · exact posr_mk _ _ fun p s n h => pos_matchWordIn (by decide) h
  · exact posr_mk _ _ fun p s n h => pos_matchWordIn (by decide) h
  · exact posr_mk _ _ fun p s n h => pos_matchWordIn (by decide) h

theorem pos_rootRulesC_all : ∀ r ∈ rootRulesC, PosR r := by
  intro r hr
  fin_cases hr
  · exact posr_mk _ _ fun p s n h => pos_mFuncName h
  · exact posr_mk _ _ fun p s n h => pos_mIdent h
  · exact posr_mk _ _ fun p s n h => pos_mDString h
  · exact posr_mk _ _ fun p s n h => pos_mSString h
  · exact posr_mk _ _ fun p s n h => pos_mBtick h

theorem posr_keywordRule : PosR keywordRule :=
  posr_mk _ _ fun p s n h => pos_matchWordIn (by decide) h

theorem posr_superRule : PosR superRule := fun _ _ _ h => pos_mSuper h

/-- The only zero-width match in `slashstartsregex` is the `(?=/)` rule:
its action replaces the state with `badregex` and it fires only when the
current character is a slash. -/
theorem zero_sssr {p : Option Char} {s : List Char} {mr : MRes} {act : Action}
    (h : firstMatch sssrRules p s = some (mr, act)) (hz : mr.len = 0) :
    act = .popPush .badregex ∧ s.head? = some '/' := by
  rw [sssrRules] at h
  rcases fm_append_elim h with h1 | ⟨-, h⟩
  · have := firstMatch_pos pos_csw_all h1; omega
  · rcases fm_cons_elim h with ⟨hm, rfl⟩ | ⟨-, h⟩
    · have : 1 ≤ mr.len := posr_mk _ _
        (fun p s n hh => pos_mRegex hh) p s mr hm
      omega
    · rcases fm_cons_elim h with ⟨hm, rfl⟩ | ⟨-, h⟩
      · refine ⟨rfl, ?_⟩
        have hm' : (mSlashAhead s).map (fun n => MRes.mk [(.TText, n)] n)
            = some mr := hm
        obtain ⟨n, hn, -⟩ := Option.map_eq_some'.mp hm'
        simp only [mSlashAhead] at hn
        split at hn
        · assumption
        · exact absurd hn (by simp)
      · simp [firstMatch] at h

/-- The only zero-width match in `root` is the line-start lookahead rule:
its action pushes `slashstartsregex` and it fires only at a line start whose
next characters announce whitespace, a slash, or an HTML comment opener. -/
theorem zero_root {p : Option Char} {s : List Char} {mr : MRes} {act : Action}
    (h : firstMatch rootRules p s = some (mr, act)) (hz : mr.len = 0) :
    act = .push .slashstartsregex ∧ atLineStart p = true ∧ lookaheadSW s = true := by
  rw [rootRules] at h
  rcases fm_cons_elim h with ⟨hm, rfl⟩ | ⟨-, h⟩
  · have : 1 ≤ mr.len := posr_mk _ _
      (fun p s n hh => pos_mHashbang hh) p s mr hm
    omega
  · rcases fm_cons_elim h with ⟨hm, rfl⟩ | ⟨-, h⟩
    · refine ⟨rfl, ?_⟩
      have hm' : (mLineStart p s).map (fun n => MRes.mk [(.TText, n)] n)
          = some mr := hm
      obtain ⟨n, hn, -⟩ := Option.map_eq_some'.mp hm'
      simp only [mLineStart] at hn
      split at hn
      · simp_all
      · exact absurd hn (by simp)
    · rcases fm_append_elim h with h3 | ⟨-, h⟩
      · have := firstMatch_pos pos_rootRules1_all h3; omega
      · rcases fm_cons_elim h with ⟨hm, rfl⟩ | ⟨-, h⟩
        · have := posr_keywordRule p s mr hm; omega
        · rcases fm_append_elim h with h6 | ⟨-, h⟩
          · have := firstMatch_pos pos_rootRulesB_all h6; omega
          · rcases fm_cons_elim h with ⟨hm, rfl⟩ | ⟨-, h⟩
            · have := posr_superRule p s mr hm; omega
            · have := firstMatch_pos pos_rootRulesC_all h; omega

/-- The zero-width case of `interp-inside` reduces to that of `root`. -/
theorem zero_interpInside {p : Option Char} {s : List Char} {mr : MRes}
    {act : Action} (h : firstMatch interpInsideRules p s = some (mr, act))
    (hz : mr.len = 0) :
    act = .push .slashstartsregex ∧ atLineStart p = true ∧ lookaheadSW s = true := by
  rw [interpInsideRules] at h
  rcases fm_cons_elim h with ⟨hm, rfl⟩ | ⟨-, h⟩
  · have : 1 ≤ mr.len := posr_mk _ _
      (fun p s n hh => pos_mRBrace hh) p s mr hm
    omega
  · exact zero_root h hz

/-! ### Progress facts for the zero-width transitions -/

theorem mWs_cons_space {c : Char} {s : List Char} (h : isSpaceCh c = true) :
    mWs (c :: s) ≠ none := by
  simp [mWs, countWhile, h]

/-- Under the lookahead of the line-start rule, `slashstartsregex` always
finds a matching rule: whitespace matches `\s+`, `<!--` matches the HTML
comment rule, and a slash at least matches `(?=/)`. -/
theorem fm_sssr_ne_none {p : Option Char} {s : List Char}
    (hla : lookaheadSW s = true) : firstMatch sssrRules p s ≠ none := by
  intro hn
  have hall := firstMatch_forall_none hn
  simp only [lookaheadSW, Bool.or_eq_true] at hla
  rcases hla with hc | hhtml
  · cases s with
    | nil => simp at hc
    | cons c s0 =>
      simp only [List.head?_cons, Bool.or_eq_true, decide_eq_true_eq] at hc
      rcases hc with hsp | rfl
      · have hmem : mkRule (noPrev mWs) .Whitespace .stay ∈ sssrRules := by
          simp [sssrRules, cswRules]
        have := hall _ hmem
        simp only [mkRule, noPrev, Option.map_eq_none'] at this
        exact mWs_cons_space hsp this
      · have hmem : slashAheadRule ∈ sssrRules := by
          simp [sssrRules]
        have := hall _ hmem
        simp [slashAheadRule, mkRule, noPrev, mSlashAhead] at this
  · have hmem : mkRule (noPrev mHtmlComment) .Comment .stay ∈ sssrRules := by
      simp [sssrRules, cswRules]
    have := hall _ hmem
    simp [mkRule, noPrev, mHtmlComment, hhtml] at this

theorem fm_badregex_slash {p : Option Char} {s : List Char}
    (hh : s.head? = some '/') : firstMatch badregexRules p s = none := by
  simp [badregexRules, firstMatch, mkRule, noPrev, mNewline, hh]

/-! ### Coverage of the scan

The measure `4·|rest| + |stack| + 2` bounds the fuel a scan needs: every
step either consumes a character (cost at most 4, since the stack grows by
at most one), pops the stack without consuming (paid by the stack part), or
is one of the two zero-width lookahead transitions, each of which leads to a
consuming step within two further steps. -/

/-- After the `badregex` replacement fired on a slash, the next step is the
per-character Error fallback (`/` does not match `\n`); scanning then
continues with one character consumed. -/
theorem cover_in_badregex (f : Nat)
    (ih : ∀ m, m < f + 1 → ∀ (s : List Char) (p : Option Char) (stk : List St),
      4 * s.length + stk.length + 2 ≤ m → tokensText (loopAux m p s stk) = s)
    (s0 : List Char) (p : Option Char) (stk : List St)
    (hfuel : 4 * s0.length + stk.length + 4 ≤ f) :
    tokensText (loopAux f p ('/' :: s0) (.badregex :: stk)) = '/' :: s0 := by
  cases f with
  | zero => omega
  | succ f2 =>
    simp only [loopAux]
    have hstep : step p ('/' :: s0) (.badregex :: stk)
        = ([(.Error, ['/'])], 1, .badregex :: stk) := by
      simp [step, topSt, rulesOf, hasDefaultPop,
        fm_badregex_slash (p := p) (s := '/' :: s0) rfl]
    rw [hstep]
    simp only [List.drop_succ_cons, List.drop_zero]
    rw [tokensText_append]
    have hrec := ih f2 (by omega) s0 (nextPrev p ('/' :: s0) 1) (.badregex :: stk)
      (by simp only [List.length_cons]; omega)
    rw [hrec]
    simp [tokensText]

/-- After the zero-width line-start push, `slashstartsregex` either consumes
at once or replaces itself with `badregex` on a slash and consumes one
character there: the input is covered either way. -/
theorem cover_after_push (f : Nat)
    (ih : ∀ m, m < f + 1 → ∀ (s : List Char) (p : Option Char) (stk : List St),
      4 * s.length + stk.length + 2 ≤ m → tokensText (loopAux m p s stk) = s)
    (c : Char) (s0 : List Char) (p : Option Char) (stk : List St)
    (hla : lookaheadSW (c :: s0) = true)
    (hfuel : 4 * (s0.length + 1) + stk.length + 2 ≤ f + 1) :
    tokensText (loopAux f p (c :: s0) (.slashstartsregex :: stk)) = c :: s0 := by
  cases f with
  | zero => omega
  | succ f1 =>
    simp only [loopAux]
    cases hfm2 : firstMatch sssrRules p (c :: s0) with
    | none => exact absurd hfm2 (fm_sssr_ne_none hla)
    | some r =>
      obtain ⟨mr2, act2⟩ := r
      have hstep : step p (c :: s0) (.slashstartsregex :: stk)
          = (emitSegs mr2.segs (c :: s0), mr2.len,
             applyAct act2 (.slashstartsregex :: stk)) := by
        simp [step, topSt, rulesOf, hfm2]
      rw [hstep]
      rw [tokensText_append, tokensText_emitSegs, firstMatch_wf wf_sssr_all hfm2]
      by_cases hlen2 : 1 ≤ mr2.len
      · have hA := applyAct_length act2 (.slashstartsregex :: stk)
        have hrec := ih f1 (by omega) ((c :: s0).drop mr2.len)
          (nextPrev p (c :: s0) mr2.len) (applyAct act2 (.slashstartsregex :: stk))
          (by simp only [List.length_drop, List.length_cons] at *; omega)
        rw [hrec]
        exact List.take_append_drop _ _
      · have hz2 : mr2.len = 0 := by omega
        obtain ⟨hact2, hc⟩ := zero_sssr hfm2 hz2
        subst hact2
        obtain rfl : c = '/' := by simpa using hc
        rw [hz2]
        simp only [List.take_zero, List.drop_zero, List.nil_append]
        have hact : applyAct (.popPush .badregex) (.slashstartsregex :: stk)
            = .badregex :: stk := rfl
        rw [hact]
        have hnp : nextPrev p ('/' :: s0) 0 = p := by simp [nextPrev]
        rw [hnp]
        exact cover_in_badregex f1 (fun m hm => ih m (by omega)) s0 p stk (by omega)

/-- Main coverage invariant: with fuel at least `4·|s| + |stack| + 2`,
the concatenated token spans of the scan loop reproduce the remaining
input exactly. -/
theorem loopAux_covers :
    ∀ (fuel : Nat) (s : List Char) (p : Option Char) (stk : List St),
      4 * s.length + stk.length + 2 ≤ fuel →
      tokensText (loopAux fuel p s stk) = s := by
  intro fuel
  induction fuel using Nat.strong_induction_on with
  | _ fuel ih =>
    intro s p stk hfuel
    cases fuel with
    | zero => omega
    | succ f =>
      cases s with
      | nil => simp [loopAux, tokensText]
      | cons c s0 =>
        simp only [List.length_cons] at hfuel
        simp only [loopAux]
        cases hfm : firstMatch (rulesOf (topSt stk)) p (c :: s0) with
        | some r =>
          obtain ⟨mr, act⟩ := r
          have hstep : step p (c :: s0) stk
              = (emitSegs mr.segs (c :: s0), mr.len, applyAct act stk) := by
            simp [step, hfm]
          rw [hstep]
          rw [tokensText_append, tokensText_emitSegs, wf_state (topSt stk) hfm]
          by_cases hlen : 1 ≤ mr.len
          · have hA := applyAct_length act stk
            have hrec := ih f (by omega) ((c :: s0).drop mr.len)
              (nextPrev p (c :: s0) mr.len) (applyAct act stk)
              (by simp only [List.length_drop, List.length_cons]; omega)
            rw [hrec]
            exact List.take_append_drop _ _
          · have hz : mr.len = 0 := by omega
            rw [hz]
            simp only [List.take_zero, List.drop_zero, List.nil_append]
            have hnp : nextPrev p (c :: s0) 0 = p := by simp [nextPrev]
            rw [hnp]
            cases hT : topSt stk with
            | root =>
              rw [hT] at hfm
              obtain ⟨hact, -, hla⟩ := zero_root hfm hz
              subst hact
              have : applyAct (.push .slashstartsregex) stk
                  = .slashstartsregex :: stk := rfl
              rw [this]
              exact cover_after_push f ih c s0 p stk hla (by omega)
            | interpInside =>
              rw [hT] at hfm
              obtain ⟨hact, -, hla⟩ := zero_interpInside hfm hz
              subst hact
              have : applyAct (.push .slashstartsregex) stk
                  = .slashstartsregex :: stk := rfl
              rw [this]
              exact cover_after_push f ih c s0 p stk hla (by omega)
            | slashstartsregex =>
              rw [hT] at hfm
              obtain ⟨hact, hc⟩ := zero_sssr hfm hz
              subst hact
              obtain rfl : c = '/' := by simpa using hc
              cases stk with
              | nil => simp [topSt] at hT
              | cons st1 stk0 =>
                obtain rfl : st1 = .slashstartsregex := by simpa [topSt] using hT
                have hact : applyAct (.popPush .badregex)
                    (.slashstartsregex :: stk0) = .badregex :: stk0 := rfl
                rw [hact]
                simp only [List.length_cons] at hfuel
                exact cover_in_badregex f ih s0 p stk0 (by omega)
            | interp =>
              rw [hT] at hfm
              have := firstMatch_pos pos_interp_all hfm
              omega
            | badregex =>
              rw [hT] at hfm
              have := firstMatch_pos pos_badregex_all hfm
              omega
        | none =>
          by_cases hd : hasDefaultPop (topSt stk) = true
          · have hT : topSt stk = .slashstartsregex := by
              cases hh : topSt stk <;> simp_all [hasDefaultPop]
            cases stk with
            | nil => simp [topSt] at hT
            | cons st1 stk0 =>
              obtain rfl : st1 = .slashstartsregex := by simpa [topSt] using hT
              have hfm' : firstMatch sssrRules p (c :: s0) = none := hfm
              have hstep : step p (c :: s0) (.slashstartsregex :: stk0)
                  = ([], 0, stk0) := by
                simp [step, hfm', hasDefaultPop, topSt, rulesOf]
              rw [hstep]
              simp only [List.drop_zero, List.nil_append]
              have hnp : nextPrev p (c :: s0) 0 = p := by simp [nextPrev]
              rw [hnp]
              simp only [List.length_cons] at hfuel
              exact ih f (by omega) (c :: s0) p stk0
                (by simp only [List.length_cons]; omega)
          · have hstep : step p (c :: s0) stk = ([(.Error, [c])], 1, stk) := by
              simp [step, hfm, hd]
            rw [hstep]
            simp only [List.drop_succ_cons, List.drop_zero]
            rw [tokensText_append]
            have hrec := ih f (by omega) s0 (nextPrev p (c :: s0) 1) stk
              (by omega)
            rw [hrec]
            simp [tokensText]

/-! ### The state-stack invariant

The stack always consists of pushed states above the initial `root`:
`root` sits at the bottom and nowhere else, so it is never popped and the
stack never empties. -/

theorem acts_ok (S : St) : ∀ r ∈ rulesOf S, pushTargetOK r.act = true := by
  intro r hr
  cases S <;> simp only [rulesOf] at hr
  case root => fin_cases hr <;> rfl
  case slashstartsregex => fin_cases hr <;> rfl
  case badregex => fin_cases hr; rfl
  case interp => fin_cases hr <;> rfl
  case interpInside => fin_cases hr <;> rfl

theorem root_pop_free : ∀ r ∈ rulesOf .root, isPopFree r.act = true := by
  intro r hr
  simp only [rulesOf] at hr
  fin_cases hr <;> rfl

theorem good_tail {st : St} {stk : List St} (hg : goodStack (st :: stk))
    (hne : st ≠ .root) : stk ≠ [] ∧ goodStack stk := by
  obtain ⟨-, hlast, hmem⟩ := hg
  cases stk with
  | nil =>
    simp only [List.getLast?_singleton, Option.some_inj] at hlast
    exact absurd hlast hne
  | cons b l =>
    rw [List.getLast?_cons_cons] at hlast
    simp only [List.dropLast, List.mem_cons, not_or] at hmem
    refine ⟨by simp, by simp, hlast, ?_⟩
    have := hmem.2
    simpa [List.dropLast] using this

theorem good_push {s1 : St} {stk : List St} (hg : goodStack stk)
    (hne : s1 ≠ .root) : goodStack (s1 :: stk) := by
  obtain ⟨h1, h2, h3⟩ := hg
  cases stk with
  | nil => exact absurd rfl h1
  | cons b l =>
    refine ⟨by simp, ?_, ?_⟩
    · rw [List.getLast?_cons_cons]; exact h2
    · simp only [List.dropLast, List.mem_cons, not_or]
      exact ⟨fun he => hne he.symm, by simpa [List.dropLast] using h3⟩

theorem topSt_ne_root_shape {stk : List St} (htop : topSt stk ≠ .root) :
    ∃ st1 rest, stk = st1 :: rest ∧ st1 ≠ .root := by
  cases stk with
  | nil => simp [topSt] at htop
  | cons st1 rest => exact ⟨st1, rest, rfl, by simpa [topSt] using htop⟩

/-- One dispatch step preserves the stack invariant: pushes never push
`root`, and pop (or pop-and-push, or the default pop) only ever fires in a
state other than `root`, which by the invariant sits above at least the
bottom `root` entry. -/
theorem step_stack_good (p : Option Char) (s : List Char) {stk : List St}
    (hg : goodStack stk) : goodStack (step p s stk).2.2 := by
  cases hfm : firstMatch (rulesOf (topSt stk)) p s with
  | some r =>
    obtain ⟨mr, act⟩ := r
    have hstep : step p s stk = (emitSegs mr.segs s, mr.len, applyAct act stk) := by
      simp [step, hfm]
    rw [hstep]
    show goodStack (applyAct act stk)
    obtain ⟨r0, hr0, -, ha0⟩ := firstMatch_mem hfm
    subst ha0
    have hok := acts_ok (topSt stk) r0 hr0
    cases hact : r0.act with
    | stay => simpa [applyAct] using hg
    | push s1 =>
      have hne : s1 ≠ .root := by
        rw [hact] at hok; simpa [pushTargetOK] using hok
      simpa [applyAct] using good_push hg hne
    | pop =>
      have htop : topSt stk ≠ .root := by
        intro he
        rw [he] at hr0
        have := root_pop_free r0 hr0
        rw [hact] at this
        simp [isPopFree] at this
      obtain ⟨st1, rest, rfl, h1⟩ := topSt_ne_root_shape htop
      simpa [applyAct] using (good_tail hg h1).2
    | popPush s1 =>
      have hne : s1 ≠ .root := by
        rw [hact] at hok; simpa [pushTargetOK] using hok
      have htop : topSt stk ≠ .root := by
        intro he
        rw [he] at hr0
        have := root_pop_free r0 hr0
        rw [hact] at this
        simp [isPopFree] at this
      obtain ⟨st1, rest, rfl, h1⟩ := topSt_ne_root_shape htop
      simpa [applyAct] using good_push (good_tail hg h1).2 hne
  | none =>
    by_cases hd : hasDefaultPop (topSt stk) = true
    · have htop : topSt stk = .slashstartsregex := by
        cases hh : topSt stk <;> simp_all [hasDefaultPop]
      obtain ⟨st1, rest, rfl, h1⟩ := topSt_ne_root_shape (by rw [htop]; simp)
      have hstep : step p s (st1 :: rest) = ([], 0, rest) := by
        simp [step, hfm, hd]
      rw [hstep]
      exact (good_tail hg h1).2
    · cases s with
      | nil =>
        have hstep : step p [] stk = ([], 0, stk) := by
          simp [step, hfm, hd]
        rw [hstep]
        exact hg
      | cons c s0 =>
        have hstep : step p (c :: s0) stk = ([(.Error, [c])], 1, stk) := by
          simp [step, hfm, hd]
        rw [hstep]
        exact hg

/-! ### The claims -/

/-- C1: For every input text, the concatenation of the matched-text spans of
all tokens emitted by a scan, in emission order, equals the input text
exactly — no gaps, no overlaps, every character (including whitespace and
comments) covered by exactly one token span.  (Zero-width lookahead rules
contribute empty spans, which add nothing to the concatenation.) -/
theorem claim_C1_coverage (s : List Char) : tokensText (tokenize s) = s := by
  unfold tokenize
  exact loopAux_covers _ s none [.root] (by simp)

/-- C2: In the `root` state, `/abc/g` at the start of a line — directly or
after leading whitespace — is lexed as a single Regex token with its
trailing flags included (the zero-width line-start marker contributes no
span), whereas in `a/b/g` after the identifier `a` each `/` is an Operator
token and `b`, `g` are identifier tokens, with no Regex token produced. -/
theorem claim_C2_regex_vs_division :
    spans (tokenize ['/', 'a', 'b', 'c', '/', 'g']) =
      [(.StringRegex, ['/', 'a', 'b', 'c', '/', 'g'])] ∧
    spans (tokenize (' ' :: ['/', 'a', 'b', 'c', '/', 'g'])) =
      [(.Whitespace, [' ']), (.StringRegex, ['/', 'a', 'b', 'c', '/', 'g'])] ∧
    tokenize ['a', '/', 'b', '/', 'g'] =
      [(.NameOther, ['a']), (.Operator, ['/']), (.NameOther, ['b']),
       (.Operator, ['/']), (.NameOther, ['g'])] :=
  ⟨rfl, rfl, rfl⟩

/-- C3: `` `a${b}c` `` yields backtick-open, string span `a`,
interpolation-open `${`, identifier `b`, interpolation-close `}`, string
span `c`, backtick-close; and the doubly nested `` `x${`y${1}z`}w` `` lexes
with correctly matched two-level nesting, each `${` paired with its `}` and
each inner backtick pair closed before the outer one. -/
theorem claim_C3_template_nesting :
    tokenize [btick, 'a', '$', lbrace, 'b', rbrace, 'c', btick] =
      [(.StringBacktick, [btick]), (.StringBacktick, ['a']),
       (.StringInterpol, ['$', lbrace]), (.NameOther, ['b']),
       (.StringInterpol, [rbrace]), (.StringBacktick, ['c']),
       (.StringBacktick, [btick])] ∧
    tokenize [btick, 'x', '$', lbrace, btick, 'y', '$', lbrace, '1', rbrace,
              'z', btick, rbrace, 'w', btick] =
      [(.StringBacktick, [btick]), (.StringBacktick, ['x']),
       (.StringInterpol, ['$', lbrace]),
       (.StringBacktick, [btick]), (.StringBacktick, ['y']),
       (.StringInterpol, ['$', lbrace]), (.NumberFloat, ['1']),
       (.StringInterpol, [rbrace]), (.StringBacktick, ['z']),
       (.StringBacktick, [btick]),
       (.StringInterpol, [rbrace]), (.StringBacktick, ['w']),
       (.StringBacktick, [btick])] :=
  ⟨rfl, rfl⟩

/-- C4: The binary/octal/hex/BigInt rules precede the generic float/integer
rule, so `0x1F` is one Hex-number token — even though the generic number
rule would match the leading `0` (second conjunct) — because the hex rule
matches all four characters (third conjunct) and is tried first. -/
theorem claim_C4_numeric_precedence :
    tokenize ['0', 'x', '1', 'F'] = [(.NumberHex, ['0', 'x', '1', 'F'])] ∧
    mNumFloat ['0', 'x', '1', 'F'] = some 1 ∧
    mNumHex ['0', 'x', '1', 'F'] = some 4 :=
  ⟨rfl, rfl, rfl⟩

/-- C5: Keyword, reserved-word and builtin-name rules take priority over the
generic identifier rule: every whole word of the table's word alternations
scans to a single token carrying the whole word with a non-identifier label,
and `class` in particular yields one Declaration-keyword token. -/
theorem claim_C5_keyword_priority :
    keywordFamilyWords.all oneKeywordToken = true ∧
    tokenize ['c', 'l', 'a', 's', 's'] =
      [(.KeywordDeclaration, ['c', 'l', 'a', 's', 's'])] :=
  ⟨rfl, rfl⟩

/-- C6: When a `/` in `slashstartsregex` matches no comment and no
well-formed regex literal, the `(?=/)` rule replaces the state with
`badregex` without consuming input (third conjunct); in `badregex` every
character other than a newline is consumed as an unclassified Error token
(first conjunct) until the newline, whose match pops `badregex` (second
conjunct); the concrete scan of `/+\n1` shows normal scanning resuming on
the next line. -/
theorem claim_C6_badregex_recovery :
    (∀ (p : Option Char) (s : List Char) (stk : List St) (c : Char),
       c ≠ '\n' →
       step p (c :: s) (.badregex :: stk) = ([(.Error, [c])], 1, .badregex :: stk)) ∧
    (∀ (p : Option Char) (s : List Char) (stk : List St),
       step p ('\n' :: s) (.badregex :: stk) = ([(.Whitespace, ['\n'])], 1, stk)) ∧
    (∀ (p : Option Char) (s : List Char) (stk : List St),
       s.head? = some '/' → firstMatch cswRules p s = none → mRegex s = none →
       step p s (.slashstartsregex :: stk) = ([(.TText, [])], 0, .badregex :: stk)) ∧
    spans (tokenize ['/', '+', '\n', '1']) =
      [(.Error, ['/']), (.Error, ['+']), (.Whitespace, ['\n']),
       (.NumberFloat, ['1'])] := by
  refine ⟨?_, ?_, ?_, rfl⟩
  · intro p s stk c hc
    have hnl : mNewline (c :: s) = none := by
      simp [mNewline, hc]
    have hfm : firstMatch badregexRules p (c :: s) = none := by
      simp [badregexRules, firstMatch, mkRule, noPrev, hnl]
    simp [step, topSt, rulesOf, hfm, hasDefaultPop]
  · intro p s stk
    have hfm : firstMatch badregexRules p ('\n' :: s)
        = some (⟨[(.Whitespace, 1)], 1⟩, .pop) := by
      simp [badregexRules, firstMatch, mkRule, noPrev, mNewline]
    have hstep : step p ('\n' :: s) (.badregex :: stk)
        = (emitSegs [(.Whitespace, 1)] ('\n' :: s), 1,
           applyAct .pop (.badregex :: stk)) := by
      simp [step, topSt, rulesOf, hfm]
    rw [hstep]
    simp [emitSegs, applyAct]
  · intro p s stk hh h1 h2
    have hfm : firstMatch sssrRules p s
        = some (⟨[(.TText, 0)], 0⟩, .popPush .badregex) := by
      rw [sssrRules, firstMatch_append, h1]
      simp [firstMatch, mkRule, noPrev, h2, mSlashAhead, hh, slashAheadRule]
    have hstep : step p s (.slashstartsregex :: stk)
        = (emitSegs [(.TText, 0)] s, 0,
           applyAct (.popPush .badregex) (.slashstartsregex :: stk)) := by
      simp [step, topSt, rulesOf, hfm]
    rw [hstep]
    simp [emitSegs, applyAct]

/-- Witness for C6 at concrete inputs. -/
theorem claim_C6_badregex_recovery_witness :
    step none ['+'] [.badregex, .root] = ([(.Error, ['+'])], 1, [.badregex, .root]) ∧
    step (some ' ') ['/', '+'] [.slashstartsregex, .root]
      = ([(.TText, [])], 0, [.badregex, .root]) := by
  constructor
  · exact claim_C6_badregex_recovery.1 none [] [.root] '+' (by decide)
  · exact claim_C6_badregex_recovery.2.2.1 (some ' ') ['/', '+'] [.root]
      (by decide) (by decide) (by decide)

/-- C7: In `slashstartsregex`, when neither a whitespace/comment rule nor
the regex-literal rule nor the `(?=/)` lookahead matches, the default
fallback pops the state without consuming input and without emitting any
token; scanning continues at the same position in the enclosing state. -/
theorem claim_C7_default_pop :
    ∀ (p : Option Char) (s : List Char) (stk : List St),
      firstMatch cswRules p s = none → mRegex s = none → mSlashAhead s = none →
      step p s (.slashstartsregex :: stk) = ([], 0, stk) := by
  intro p s stk h1 h2 h3
  have hfm : firstMatch sssrRules p s = none := by
    rw [sssrRules, firstMatch_append, h1]
    simp [firstMatch, mkRule, noPrev, h2, h3, slashAheadRule]
  simp [step, topSt, rulesOf, hfm, hasDefaultPop]

/-- Witness for C7 at a concrete input. -/
theorem claim_C7_default_pop_witness :
    step (some '/') ['b'] [.slashstartsregex, .root] = ([], 0, [.root]) :=
  claim_C7_default_pop (some '/') ['b'] [.root] (by decide) (by decide) (by decide)

/-- C8: Tokenizing is deterministic: two scans of the same text in sequence
yield identical token sequences.  Each scan owns a fresh position and a
fresh `[root]` stack, the state table being the only process-wide data and
immutable, so the embedding of a scan is a pure function of the input. -/
theorem claim_C8_determinism (s : List Char) :
    (scanTwice s).1 = (scanTwice s).2 := rfl

/-- C9: The lexer state stack is never empty at any step: it starts as
`[root]` (which satisfies the invariant), `root` contains no pop rule, and
every dispatch step preserves the invariant that `root` sits at the bottom
of the stack and only there — so every pop fires in a pushed state that
lies above at least the bottom entry, and no pop empties the stack. -/
theorem claim_C9_stack_never_empties :
    goodStack [St.root] ∧
    (∀ r ∈ rulesOf .root, isPopFree r.act = true) ∧
    (∀ (p : Option Char) (s : List Char) (stk : List St), goodStack stk →
       goodStack (step p s stk).2.2 ∧ (step p s stk).2.2 ≠ []) := by
  refine ⟨by decide, root_pop_free, ?_⟩
  intro p s stk hg
  have h := step_stack_good p s hg
  exact ⟨h, h.1⟩

/-- Witness for C9 at a concrete configuration. -/
theorem claim_C9_stack_never_empties_witness :
    goodStack (step none ['x'] [St.root]).2.2 ∧
    (step none ['x'] [St.root]).2.2 ≠ [] ∧
    isPopFree hashbangRule.act = true := by
  have h := claim_C9_stack_never_empties
  refine ⟨(h.2.2 none ['x'] [St.root] (by decide)).1,
          (h.2.2 none ['x'] [St.root] (by decide)).2,
          h.2.1 hashbangRule (by simp [rulesOf, rootRules])⟩

/-- C10: Inside a template literal (state `interp`), a `$` not immediately
followed by `{` is emitted as string content (`String.Backtick`) with no
state change; exactly the two-character `${` is emitted as an interpolation
token and pushes `interp-inside`; `` `a$b` `` lexes entirely as string
content between its backticks, with no interpolation or Error token. -/
theorem claim_C10_dollar_in_template :
    (∀ (p : Option Char) (s : List Char) (stk : List St),
       s.head? ≠ some lbrace →
       step p ('$' :: s) (.interp :: stk) =
         ([(.StringBacktick, ['$'])], 1, .interp :: stk)) ∧
    (∀ (p : Option Char) (s : List Char) (stk : List St),
       step p ('$' :: lbrace :: s) (.interp :: stk) =
         ([(.StringInterpol, ['$', lbrace])], 2,
          .interpInside :: .interp :: stk)) ∧
    tokenize [btick, 'a', '$', 'b', btick] =
      [(.StringBacktick, [btick]), (.StringBacktick, ['a']),
       (.StringBacktick, ['$']), (.StringBacktick, ['b']),
       (.StringBacktick, [btick])] := by
  refine ⟨?_, fun p s stk => rfl, rfl⟩
  intro p s stk hbr
  have h1 : mBtick ('$' :: s) = none := rfl
  have h2 : mEsc ('$' :: s) = none := rfl
  have h3 : mInterpOpen ('$' :: s) = none := by
    cases s with
    | nil => rfl
    | cons c t =>
      simp only [List.head?_cons, ne_eq, Option.some_inj] at hbr
      simp [mInterpOpen, startsWith, stripPfx, Ne.symm hbr]
  have h4 : mDollar ('$' :: s) = some 1 := rfl
  have hfm : firstMatch interpRules p ('$' :: s)
      = some (⟨[(.StringBacktick, 1)], 1⟩, .stay) := by
    simp [interpRules, firstMatch, mkRule, noPrev, h1, h2, h3, h4]
  have hstep : step p ('$' :: s) (.interp :: stk)
      = (emitSegs [(.StringBacktick, 1)] ('$' :: s), 1,
         applyAct .stay (.interp :: stk)) := by
    simp [step, topSt, rulesOf, hfm]
  rw [hstep]
  simp [emitSegs, applyAct]

/-- Witness for C10 at a concrete input. -/
theorem claim_C10_dollar_in_template_witness :
    step none ['$', 'b'] [.interp, .root]
      = ([(.StringBacktick, ['$'])], 1, [.interp, .root]) :=
  claim_C10_dollar_in_template.1 none ['b'] [.root] (by decide)

end Ewts
